import Mathlib

/-!
Verification of the video-plan resolution pipeline of the Kinective
repository (`next-js/src/lib/langChainLogic.js`).

The JavaScript pipeline is embedded shallowly:

* strings are `String` / `List Char`; JavaScript `toLowerCase`, `trim`,
  `includes` and the concrete `/.../i` regexes of the file are implemented
  directly over `List Char` (`Char.toLower` lowers ASCII letters, which is
  what the patterns of this file use);
* the external world (Tavily search, page fetches, the YouTube oEmbed
  endpoint, the Gemini model, and the `Math.random()` comparator used by
  `Array.prototype.sort`) is an explicit environment record `Env`; each
  outcome field enumerates exactly the behaviours the code distinguishes;
* a JavaScript exception that propagates out of a function is
  `Except.error msg`; a normal return is `Except.ok`;
* `model.invoke` calls are counted: the orchestrator bodies return the
  produced `ResolutionResult` together with the number of generative-model
  invocations performed during the run.
-/

/-- Lowercase a character list: JavaScript `toLowerCase()` restricted to the
ASCII material this pipeline manipulates. -/
def lcs (cs : List Char) : List Char := cs.map Char.toLower

/-- Case-insensitive test that `pat` matches at the start of `cs`; models the
literal part of a JavaScript `/.../i` regex anchored at a given position. -/
def ciPre : List Char → List Char → Bool
  | [], _ => true
  | _ :: _, [] => false
  | p :: ps, c :: cs => (p.toLower == c.toLower) && ciPre ps cs

/-- Case-insensitive substring test: some position of `cs` starts a
case-insensitive occurrence of `pat` (a bare `/pat/i.test(s)`). -/
def ciSub (pat : List Char) : List Char → Bool
  | [] => ciPre pat []
  | c :: cs => ciPre pat (c :: cs) || ciSub pat cs

/-- Case-sensitive substring test: JavaScript `String.prototype.includes`. -/
def csSub (pat : List Char) : List Char → Bool
  | [] => pat.isEmpty
  | c :: cs => pat.isPrefixOf (c :: cs) || csSub pat cs

/-- Case-insensitive ends-with test, for the `/\.(mp4|webm)$/i` pattern. -/
def ciEnd (pat cs : List Char) : Bool := ciPre pat.reverse cs.reverse

theorem ciPre_iff (pat cs : List Char) : ciPre pat cs = true ↔ lcs pat <+: lcs cs := by
  induction pat generalizing cs with
  | nil => simp [ciPre, lcs]
  | cons p ps ih =>
    cases cs with
    | nil => simp [ciPre, lcs]
    | cons c t =>
      simp only [ciPre, Bool.and_eq_true, beq_iff_eq, lcs, List.map_cons,
        List.cons_prefix_cons, ih]

theorem ciSub_iff (pat cs : List Char) : ciSub pat cs = true ↔ lcs pat <:+: lcs cs := by
  induction cs with
  | nil =>
    simp only [ciSub, ciPre_iff, lcs, List.map_nil]
    constructor
    · exact fun h => h.isInfix
    · intro h
      rw [List.infix_nil] at h
      rw [h]
  | cons c t ih =>
    simp only [ciSub, Bool.or_eq_true, ciPre_iff, ih, lcs, List.map_cons,
      List.infix_cons_iff]

theorem csSub_iff (pat cs : List Char) : csSub pat cs = true ↔ pat <:+: cs := by
  induction cs with
  | nil =>
    simp only [csSub, List.isEmpty_iff]
    rw [List.infix_nil]
  | cons c t ih =>
    simp only [csSub, Bool.or_eq_true, List.isPrefixOf_iff_prefix, ih,
      List.infix_cons_iff]

theorem ciEnd_iff (pat cs : List Char) : ciEnd pat cs = true ↔ lcs pat <:+ lcs cs := by
  have h := ciPre_iff pat.reverse cs.reverse
  rw [ciEnd, h]
  unfold lcs
  rw [List.map_reverse, List.map_reverse]
  exact List.reverse_prefix

/-- On an already-lowercase pattern, the case-sensitive substring test against
a lowercased text agrees with the case-insensitive test against the text. -/
theorem csSub_lcs (pat t : List Char) (hp : lcs pat = pat) :
    csSub pat (lcs t) = ciSub pat t := by
  rw [Bool.eq_iff_iff, csSub_iff, ciSub_iff, hp]

/-- JavaScript `String.prototype.trim` (whitespace from both ends), on the
character list. -/
def jsTrim (cs : List Char) : List Char :=
  ((cs.dropWhile Char.isWhitespace).reverse.dropWhile Char.isWhitespace).reverse

/-- The `fitnessContext` keyword array of `normalizeQuery`. -/
def fitnessContext : List String :=
  ["exercise", "workout", "fitness", "stretch", "rehab", "training"]

/-- Embedding of `normalizeQuery` (langChainLogic.js lines 11-26): trim and
lowercase the query, test the fitness keywords with `includes`, and append
one of the two literal suffixes. -/
def normalizeQuery (userQuery : String) : String :=
  let q := lcs (jsTrim userQuery.data)
  let hasFitnessWord := fitnessContext.any fun word => csSub word.data q
  if !hasFitnessWord then String.mk q ++ " exercise workout video"
  else String.mk q ++ " workout exercise fitness training stretch video"

theorem mk_append_ne_empty (q : List Char) (suf : String) (hsuf : suf.data ≠ []) :
    String.mk q ++ suf ≠ "" := by
  intro he
  have hd : q ++ suf.data = ([] : List Char) := congrArg String.data he
  exact hsuf (List.append_eq_nil.mp hd).2

/-- C6: normalizeQuery trims and lowercases its input, tests each of the six
fixed fitness keywords as a case-insensitive substring of the trimmed input,
appends " exercise workout video" when none is present and the full canonical
suffix when one is present, and its output is non-empty for every input. -/
theorem normalizeQuery_contract (s : String) :
    ((fitnessContext.any fun w => ciSub w.data (jsTrim s.data)) = false →
      normalizeQuery s = String.mk (lcs (jsTrim s.data)) ++ " exercise workout video")
    ∧ ((fitnessContext.any fun w => ciSub w.data (jsTrim s.data)) = true →
      normalizeQuery s
        = String.mk (lcs (jsTrim s.data)) ++ " workout exercise fitness training stretch video")
    ∧ normalizeQuery s ≠ "" := by
  have hb : (fitnessContext.any fun w => csSub w.data (lcs (jsTrim s.data)))
      = (fitnessContext.any fun w => ciSub w.data (jsTrim s.data)) := by
    simp only [fitnessContext, List.any_cons, List.any_nil]
    rw [csSub_lcs _ _ (by decide), csSub_lcs _ _ (by decide), csSub_lcs _ _ (by decide),
      csSub_lcs _ _ (by decide), csSub_lcs _ _ (by decide), csSub_lcs _ _ (by decide)]
  have hq : normalizeQuery s
      = (if !(fitnessContext.any fun w => ciSub w.data (jsTrim s.data)) then
          String.mk (lcs (jsTrim s.data)) ++ " exercise workout video"
        else
          String.mk (lcs (jsTrim s.data)) ++ " workout exercise fitness training stretch video") := by
    show (if !(fitnessContext.any fun word => csSub word.data (lcs (jsTrim s.data))) then
        String.mk (lcs (jsTrim s.data)) ++ " exercise workout video"
      else
        String.mk (lcs (jsTrim s.data)) ++ " workout exercise fitness training stretch video") = _
    rw [hb]
  refine ⟨fun h => ?_, fun h => ?_, ?_⟩
  · rw [hq, h]
    rfl
  · rw [hq, h]
    rfl
  · rw [hq]
    split
    · exact mk_append_ne_empty _ _ (by decide)
    · exact mk_append_ne_empty _ _ (by decide)

/-- C6 witness: concrete runs of normalizeQuery, one query with no fitness
keyword and one containing "workout" (in capitals). -/
theorem normalizeQuery_contract_witness :
    normalizeQuery "  Back Pain " = "back pain exercise workout video"
    ∧ normalizeQuery "Arm WORKOUT"
        = "arm workout workout exercise fitness training stretch video" := by
  constructor
  · rw [(normalizeQuery_contract "  Back Pain ").1 (by decide)]
    decide
  · rw [(normalizeQuery_contract "Arm WORKOUT").2.1 (by decide)]
    decide

/-- Character class `[^"'\s]` of the embedded-video regex: anything but a
double quote (code 34), a single quote (code 39), or whitespace. -/
def isUrlChar (c : Char) : Bool :=
  !(c.toNat == 34 || c.toNat == 39 || c.isWhitespace)

/-- Backtracking search for the tail `[^"'\s]+(?:\.mp4|\.webm)` of the
embedded-video regex: the greedy `+` consumed `k` characters and is reduced
one character at a time; at each width the alternation tries `.mp4` then
`.webm`. `p` is the length of the already-matched `https?:\/\/` part. -/
def extSearch (rest : List Char) (p : Nat) : Nat → Option Nat
  | 0 => none
  | k + 1 =>
    if ciPre ".mp4".data (rest.drop (k + 1)) then some (p + (k + 1) + 4)
    else if ciPre ".webm".data (rest.drop (k + 1)) then some (p + (k + 1) + 5)
    else extSearch rest p k

/-- Length of the match of `/(https?:\/\/[^"'\s]+(?:\.mp4|\.webm))/i` anchored
at the head of `cs` (greedy `s?`, so `https://` is tried before `http://`;
the two cannot both proceed past the scheme). -/
def matchVideoLen (cs : List Char) : Option Nat :=
  if ciPre "https://".data cs then
    extSearch (cs.drop 8) 8 ((cs.drop 8).takeWhile isUrlChar).length
  else if ciPre "http://".data cs then
    extSearch (cs.drop 7) 7 ((cs.drop 7).takeWhile isUrlChar).length
  else none

/-- Leftmost match of the embedded-video regex in `cs`, as the matched slice
(JavaScript `String.prototype.match`, first capture). -/
def findVideoMatch : List Char → Option (List Char)
  | [] => none
  | c :: t =>
    match matchVideoLen (c :: t) with
    | some n => some ((c :: t).take n)
    | none => findVideoMatch t

/-- Character class `[\w-]` of the YouTube watch-URL regex. -/
def isWordDash (c : Char) : Bool := c.isAlphanum || c == '_' || c == '-'

/-- Match exactly eleven `[\w-]` id characters after the fixed prefix of
length `p`. -/
def ytIdAt (cs : List Char) (p : Nat) : Option Nat :=
  let vid := (cs.drop p).take 11
  if vid.length == 11 && vid.all isWordDash then some (p + 11) else none

/-- Length of the match of
`/(https?:\/\/www\.youtube\.com\/watch\?v=[\w-]{11})/i` anchored at the head
of `cs`. -/
def matchYtLen (cs : List Char) : Option Nat :=
  if ciPre "https://www.youtube.com/watch?v=".data cs then ytIdAt cs 32
  else if ciPre "http://www.youtube.com/watch?v=".data cs then ytIdAt cs 31
  else none

/-- Leftmost match of the canonical-YouTube-watch regex in `cs`. -/
def findYtMatch : List Char → Option (List Char)
  | [] => none
  | c :: t =>
    match matchYtLen (c :: t) with
    | some n => some ((c :: t).take n)
    | none => findYtMatch t

/-- Outcome of one `fetch` of a candidate page, as the code distinguishes it:
the fetch (or body read) rejects, the response is not ok, or a body text. -/
inductive PageOutcome where
  | netError
  | httpError
  | success (html : String)
deriving DecidableEq

/-- Embedding of `extractVideoFromPage` (langChainLogic.js lines 64-76): on
any fetch failure or non-ok status return null; otherwise return the first
embedded-video match of the markup, else the first canonical YouTube watch
match, else null. The surrounding try/catch turns every exception into the
null return, so the function is total. -/
def extractVideoFromPage (page : PageOutcome) : Option String :=
  match page with
  | .netError => none
  | .httpError => none
  | .success html =>
    match findVideoMatch html.data with
    | some m => some (String.mk m)
    | none =>
      match findYtMatch html.data with
      | some m => some (String.mk m)
      | none => none

theorem findVideoMatch_infix (cs m : List Char) (h : findVideoMatch cs = some m) :
    m <:+: cs := by
  induction cs with
  | nil => simp [findVideoMatch] at h
  | cons c t ih =>
    rw [findVideoMatch] at h
    cases hm : matchVideoLen (c :: t) with
    | some n =>
      rw [hm] at h
      rw [← Option.some.inj h]
      exact ( List.take_prefix n (c :: t)).isInfix
    | none =>
      rw [hm] at h
      exact List.infix_cons (ih h)

theorem findYtMatch_infix (cs m : List Char) (h : findYtMatch cs = some m) :
    m <:+: cs := by
  induction cs with
  | nil => simp [findYtMatch] at h
  | cons c t ih =>
    rw [findYtMatch] at h
    cases hm : matchYtLen (c :: t) with
    | some n =>
      rw [hm] at h
      rw [← Option.some.inj h]
      exact ( List.take_prefix n (c :: t)).isInfix
    | none =>
      rw [hm] at h
      exact List.infix_cons (ih h)

theorem extSearch_bound (rest : List Char) (p k n : Nat)
    (h : extSearch rest p k = some n) :
    ∃ j, 1 ≤ j ∧ j ≤ k ∧
      ((ciPre ".mp4".data (rest.drop j) = true ∧ n = p + j + 4)
        ∨ (ciPre ".webm".data (rest.drop j) = true ∧ n = p + j + 5)) := by
  induction k with
  | zero => simp [extSearch] at h
  | succ k ih =>
    rw [extSearch] at h
    split at h
    · next hc =>
      exact ⟨k + 1, by omega, le_refl _, Or.inl ⟨hc, (Option.some.inj h).symm⟩⟩
    · split at h
      · next hc =>
        exact ⟨k + 1, by omega, le_refl _, Or.inr ⟨hc, (Option.some.inj h).symm⟩⟩
      · obtain ⟨j, h1, h2, h3⟩ := ih h
        exact ⟨j, h1, by omega, h3⟩

theorem ciEnd_take_of_ciPre_drop (pat cs : List Char) (m : Nat)
    (h : ciPre pat (cs.drop m) = true) :
    ciEnd pat (cs.take (m + pat.length)) = true := by
  rw [ciEnd_iff]
  rw [ciPre_iff] at h
  have hd : lcs (List.drop m cs) = List.drop m (lcs cs) := by
    unfold lcs
    rw [List.map_drop]
  rw [hd] at h
  have hlen : (lcs pat).length = pat.length := List.length_map _ _
  have heq : lcs pat = List.take pat.length (List.drop m (lcs cs)) := by
    have h2 := List.prefix_iff_eq_take.mp h
    rwa [hlen] at h2
  have hgoal : lcs (List.take (m + pat.length) cs)
      = List.take m (lcs cs) ++ List.take pat.length (List.drop m (lcs cs)) := by
    unfold lcs
    rw [List.map_take, List.take_add]
  rw [hgoal, ← heq]
  exact List.suffix_append _ _

theorem matchVideoLen_ends (cs : List Char) (n : Nat) (h : matchVideoLen cs = some n) :
    ciEnd ".mp4".data (cs.take n) = true ∨ ciEnd ".webm".data (cs.take n) = true := by
  have main : ∀ p, extSearch (cs.drop p) p ((cs.drop p).takeWhile isUrlChar).length = some n →
      ciEnd ".mp4".data (cs.take n) = true ∨ ciEnd ".webm".data (cs.take n) = true := by
    intro p hes
    obtain ⟨j, _, _, hca⟩ := extSearch_bound _ _ _ _ hes
    rw [List.drop_drop] at hca
    rcases hca with ⟨hc, rfl⟩ | ⟨hc, rfl⟩
    · left
      have hres := ciEnd_take_of_ciPre_drop ".mp4".data cs (p + j) hc
      have hl : (".mp4" : String).data.length = 4 := rfl
      rwa [hl] at hres
    · right
      have hres := ciEnd_take_of_ciPre_drop ".webm".data cs (p + j) hc
      have hl : (".webm" : String).data.length = 5 := rfl
      rwa [hl] at hres
  rw [matchVideoLen] at h
  split at h
  · exact main 8 h
  · split at h
    · exact main 7 h
    · exact Option.noConfusion h

theorem findVideoMatch_ends (cs m : List Char) (h : findVideoMatch cs = some m) :
    ciEnd ".mp4".data m = true ∨ ciEnd ".webm".data m = true := by
  induction cs with
  | nil => simp [findVideoMatch] at h
  | cons c t ih =>
    rw [findVideoMatch] at h
    cases hm : matchVideoLen (c :: t) with
    | some n =>
      rw [hm] at h
      rw [← Option.some.inj h]
      exact matchVideoLen_ends _ _ hm
    | none =>
      rw [hm] at h
      exact ih h

theorem ciSub_take_of_ciPre (sub pat cs : List Char) (n : Nat)
    (hsub : lcs sub <:+: lcs pat) (hpre : ciPre pat cs = true) (hn : pat.length ≤ n) :
    ciSub sub (cs.take n) = true := by
  rw [ciSub_iff]
  rw [ciPre_iff] at hpre
  have hlen : (lcs pat).length = pat.length := List.length_map _ _
  have hpre2 : lcs pat <+: lcs (cs.take n) := by
    have h2 := List.prefix_iff_eq_take.mp hpre
    rw [List.prefix_iff_eq_take, hlen]
    have hmt : lcs (cs.take n) = List.take n (lcs cs) := by
      unfold lcs
      rw [List.map_take]
    rw [hmt, List.take_take, min_eq_left hn, ← hlen, ← List.prefix_iff_eq_take]
    exact hpre
  exact hsub.trans hpre2.isInfix

theorem matchYtLen_contains (cs : List Char) (n : Nat) (h : matchYtLen cs = some n) :
    ciSub "youtube.com/watch?v=".data (cs.take n) = true := by
  rw [matchYtLen] at h
  split at h
  · next hc =>
    rw [ytIdAt] at h
    split at h
    · have hn := (Option.some.inj h)
      exact ciSub_take_of_ciPre _ "https://www.youtube.com/watch?v=".data cs n
        (by decide) hc (by rw [← hn]; decide)
    · exact Option.noConfusion h
  · split at h
    · next hc =>
      rw [ytIdAt] at h
      split at h
      · have hn := (Option.some.inj h)
        exact ciSub_take_of_ciPre _ "http://www.youtube.com/watch?v=".data cs n
          (by decide) hc (by rw [← hn]; decide)
      · exact Option.noConfusion h
    · exact Option.noConfusion h

theorem findYtMatch_contains (cs m : List Char) (h : findYtMatch cs = some m) :
    ciSub "youtube.com/watch?v=".data m = true := by
  induction cs with
  | nil => simp [findYtMatch] at h
  | cons c t ih =>
    rw [findYtMatch] at h
    cases hm : matchYtLen (c :: t) with
    | some n =>
      rw [hm] at h
      rw [← Option.some.inj h]
      exact matchYtLen_contains _ _ hm
    | none =>
      rw [hm] at h
      exact ih h

/-- C7: extractVideoFromPage returns null on fetch failure or non-success
status and never throws (its try/catch makes the embedding total); on success
a returned URL is the leftmost embedded .mp4/.webm match when one exists
(the file-extension match is preferred), otherwise the leftmost canonical
YouTube watch match, and in either case it is literally a substring of the
fetched markup. -/
theorem extractVideoFromPage_contract (page : PageOutcome) (html url : String)
    (hs : page = .success html) (hr : extractVideoFromPage page = some url) :
    url.data <:+: html.data
    ∧ ((findVideoMatch html.data).isSome = true →
        findVideoMatch html.data = some url.data
          ∧ (ciEnd ".mp4".data url.data = true ∨ ciEnd ".webm".data url.data = true))
    ∧ (findVideoMatch html.data = none →
        findYtMatch html.data = some url.data
          ∧ ciSub "youtube.com/watch?v=".data url.data = true)
    ∧ extractVideoFromPage PageOutcome.netError = none
    ∧ extractVideoFromPage PageOutcome.httpError = none := by
  subst hs
  cases hv : findVideoMatch html.data with
  | some m =>
    simp only [extractVideoFromPage, hv] at hr
    have hu : url = String.mk m := (Option.some.inj hr).symm
    subst hu
    refine ⟨?_, ?_, ?_, rfl, rfl⟩
    · exact findVideoMatch_infix _ _ hv
    · intro _
      exact ⟨rfl, findVideoMatch_ends _ _ hv⟩
    · intro hnone
      exact Option.noConfusion hnone
  | none =>
    simp only [extractVideoFromPage, hv] at hr
    cases hy : findYtMatch html.data with
    | some m =>
      rw [hy] at hr
      have hu : url = String.mk m := (Option.some.inj hr).symm
      subst hu
      refine ⟨?_, ?_, ?_, rfl, rfl⟩
      · exact findYtMatch_infix _ _ hy
      · intro hsome
        exact Bool.noConfusion hsome
      · intro _
        exact ⟨rfl, findYtMatch_contains _ _ hy⟩
    | none =>
      rw [hy] at hr
      exact Option.noConfusion hr

/-- C7 witness: a concrete page whose markup embeds an .mp4 URL; the
extractor returns exactly that embedded URL. -/
theorem extractVideoFromPage_contract_witness :
    ("http://x.com/a.mp4" : String).data <:+: ("<a href=http://x.com/a.mp4>" : String).data
    ∧ ((findVideoMatch ("<a href=http://x.com/a.mp4>" : String).data).isSome = true →
        findVideoMatch ("<a href=http://x.com/a.mp4>" : String).data
            = some ("http://x.com/a.mp4" : String).data
          ∧ (ciEnd ".mp4".data ("http://x.com/a.mp4" : String).data = true
              ∨ ciEnd ".webm".data ("http://x.com/a.mp4" : String).data = true))
    ∧ (findVideoMatch ("<a href=http://x.com/a.mp4>" : String).data = none →
        findYtMatch ("<a href=http://x.com/a.mp4>" : String).data
            = some ("http://x.com/a.mp4" : String).data
          ∧ ciSub "youtube.com/watch?v=".data ("http://x.com/a.mp4" : String).data = true)
    ∧ extractVideoFromPage PageOutcome.netError = none
    ∧ extractVideoFromPage PageOutcome.httpError = none :=
  extractVideoFromPage_contract (PageOutcome.success "<a href=http://x.com/a.mp4>")
    "<a href=http://x.com/a.mp4>" "http://x.com/a.mp4" rfl (by decide)

/-- The `isDirectVideo` predicate inside `tavilySearch` (lines 46-50):
case-sensitive `includes` tests plus the case-insensitive
`/\.(mp4|webm)$/i` suffix match. -/
def isDirectVideo (url : String) : Bool :=
  csSub "youtube.com/watch?v=".data url.data
  || csSub "youtube.com/shorts/".data url.data
  || csSub "youtu.be/".data url.data
  || (ciEnd ".mp4".data url.data || ciEnd ".webm".data url.data)

/-- Occurrence of `/vimeo\.com\/\d+/i`: a case-insensitive `vimeo.com/`
followed immediately by a decimal digit. -/
def hasVimeoId : List Char → Bool
  | [] => false
  | c :: t =>
    (ciPre "vimeo.com/".data (c :: t) && (((c :: t).drop 10).headD 'x').isDigit)
    || hasVimeoId t

/-- Embedding of `isValidVideoUrl` (lines 120-135). The `Option` argument
models the dynamic `typeof url !== "string"` guard (`none` is a missing or
non-string field); the empty string is falsy in JavaScript, so `!url`
rejects it too. -/
def isValidVideoUrl : Option String → Bool
  | none => false
  | some url =>
    if url = "" then false
    else
      ciSub "youtube.com/watch?v=".data url.data
      || ciSub "youtube.com/shorts/".data url.data
      || ciSub "youtu.be/".data url.data
      || hasVimeoId url.data
      || ciSub "tiktok.com/video/".data url.data
      || ciSub "dailymotion.com/video/".data url.data
      || ciSub "instagram.com/reel/".data url.data
      || (ciEnd ".mp4".data url.data || ciEnd ".webm".data url.data)

/-- The `/youtu(\.be|be\.com)/i` test of the weekly flow's playability
helper (line 155). -/
def isYouTubeUrl (url : String) : Bool :=
  ciSub "youtu.be".data url.data || ciSub "youtube.com".data url.data

/-- Embedding of the `isPlayableYouTubeUrl` helper defined inside
`getWeeklyPlan` (lines 154-167): non-YouTube URLs skip the check and count
as playable; for a YouTube URL the oEmbed lookup's `res.ok` is the answer,
and a rejected fetch (`none`) is caught and mapped to `false`. -/
def isPlayableYouTubeUrl (oembed : String → Option Bool) (url : String) : Bool :=
  if !isYouTubeUrl url then true
  else
    match oembed url with
    | some ok => ok
    | none => false

/-- Outcome of the Tavily `fetch` and `response.json()` as `tavilySearch`
distinguishes them: the fetch rejects, the response is not ok, the JSON body
read rejects, or the url list `(data.results || []).map(r => r.url)`. -/
inductive TavilyOutcome where
  | netError
  | httpError
  | jsonError
  | success (urls : List String)
deriving DecidableEq

/-- A plan entry (a parsed element of the Gemini JSON array, or a built
weekly-plan object). `truthy` models the JavaScript truthiness of the array
element itself (the `d && ...` test); `video` is `none` when the `video`
field is absent or not a string. Single-plan entries leave `day` empty. -/
structure PlanEntry where
  truthy : Bool
  day : String
  video : Option String
  name : String
  description : String
deriving DecidableEq

/-- Outcome of one `model.invoke` plus fence strip plus `JSON.parse`, at the
granularity the orchestrators distinguish: the invocation rejects, the parse
throws (this also covers non-string `result.content`, which parses as the
empty string, and non-array parse results, whose later use throws inside the
same try in the weekly flow), or a parsed array of entries. -/
inductive GenOutcome where
  | invokeError (msg : String)
  | parseFail
  | parsed (entries : List PlanEntry)
deriving DecidableEq

/-- The external world of one pipeline run. `shuffle` is the
implementation-defined reordering produced by
`playable.sort(() => 0.5 - Math.random())`; theorems that need it assume it
permutes its input, which `Array.prototype.sort` always does. -/
structure Env where
  tavily : TavilyOutcome
  page : String → PageOutcome
  oembed : String → Option Bool
  gen : GenOutcome
  shuffle : List String → List String

/-- Embedding of `tavilySearch` (lines 29-62). There is no try/catch here: a
rejected fetch or JSON read propagates (`Except.error`); a non-ok status
returns `[]`; otherwise direct video URLs are kept and every other URL goes
through the page extractor, dropping null results (`filter(Boolean)`). -/
def tavilySearch (env : Env) (_query : String) : Except String (List String) :=
  match env.tavily with
  | .netError => .error "tavily fetch failed"
  | .httpError => .ok []
  | .jsonError => .error "tavily json failed"
  | .success urls =>
    let directVideos := urls.filter isDirectVideo
    let extracted := urls.map fun url =>
      if isDirectVideo url then none else extractVideoFromPage (env.page url)
    .ok (directVideos ++ extracted.filterMap id)

/-- The tagged result union returned by both orchestrators. -/
inductive ResolutionResult where
  | videos (videos : List String)
  | plan (plan : List PlanEntry)
  | weeklyPlan (plan : List PlanEntry)
  | error (error : String)
deriving DecidableEq

/-- A JavaScript argument as the orchestrators receive it: a string, or any
non-string value (on which `.trim()` throws a TypeError). -/
inductive JSValue where
  | str (s : String)
  | nonString
deriving DecidableEq

/-- The `normalizeQuery(userQuery)` call sites: executed before the
orchestrators' try blocks, so a non-string argument throws. -/
def normalizeQueryE : JSValue → Except String String
  | .str s => .ok (normalizeQuery s)
  | .nonString => .error "userQuery.trim is not a function"

/-- The try-block body of `getExercisePlan` (lines 83-116) together with its
catch: every exception raised inside becomes the error variant. The second
component counts `model.invoke` calls during the run. -/
def getExercisePlanBody (env : Env) (normalized : String) : ResolutionResult × Nat :=
  match tavilySearch env normalized with
  | .error e => (.error e, 0)
  | .ok videos =>
    if videos.length > 0 then (.videos videos, 0)
    else
      match env.gen with
      | .invokeError msg => (.error msg, 1)
      | .parseFail => (.plan [], 1)
      | .parsed l => (.plan l, 1)

/-- Embedding of `getExercisePlan` (lines 79-117): `normalizeQuery` runs
before the try block, so its exception propagates to the caller. -/
def getExercisePlanRun (env : Env) (input : JSValue) :
    Except String (ResolutionResult × Nat) :=
  match normalizeQueryE input with
  | .error e => .error e
  | .ok normalized => .ok (getExercisePlanBody env normalized)

/-- STEP 2 of `getWeeklyPlan`: keep only valid-looking links. -/
def validOf (videos : List String) : List String :=
  videos.filter fun v => isValidVideoUrl (some v)

/-- STEP 3 of `getWeeklyPlan`: keep only links that pass the playability
check (the sequential for loop builds exactly this filter, in order). -/
def playableOf (oembed : String → Option Bool) (videos : List String) : List String :=
  (validOf videos).filter (isPlayableYouTubeUrl oembed)

/-- STEP 4 of `getWeeklyPlan`: shuffle, then `slice(0, Math.min(7, length))`. -/
def limitedOf (env : Env) (videos : List String) : List String :=
  let shuffled := env.shuffle (playableOf env.oembed videos)
  shuffled.take (min 7 shuffled.length)

/-- STEP 5 of `getWeeklyPlan`: `limitedVideos.map((video, i) => ({ day:
Day i+1, video, name, description }))`. -/
def buildWeekly (normalized : String) : Nat → List String → List PlanEntry
  | _, [] => []
  | i, v :: vs =>
    ⟨true, "Day " ++ toString (i + 1), some v, "Suggested workout",
      "Exercise video for " ++ normalized⟩ :: buildWeekly normalized (i + 1) vs

/-- The weekly plan assembled from discovery (STEPs 2-5 composed). -/
def discoveryPlan (env : Env) (normalized : String) (videos : List String) :
    List PlanEntry :=
  buildWeekly normalized 0 (limitedOf env videos)

/-- The try-block body of `getWeeklyPlan` (lines 169-244) together with its
catches: a non-empty discovery plan is returned as-is; otherwise Gemini is
invoked once, a parse failure degrades to the empty weekly plan, and parsed
entries are filtered by `d && isValidVideoUrl(d.video)`. -/
def getWeeklyPlanBody (env : Env) (normalized : String) : ResolutionResult × Nat :=
  match tavilySearch env normalized with
  | .error e => (.error e, 0)
  | .ok videos =>
    let weeklyPlan := discoveryPlan env normalized videos
    if weeklyPlan.length > 0 then (.weeklyPlan weeklyPlan, 0)
    else
      match env.gen with
      | .invokeError msg => (.error msg, 1)
      | .parseFail => (.weeklyPlan [], 1)
      | .parsed l =>
        (.weeklyPlan (l.filter fun d => d.truthy && isValidVideoUrl d.video), 1)

/-- Embedding of `getWeeklyPlan` (lines 149-249): `normalizeQuery` runs
before the try block, so its exception propagates to the caller. -/
def getWeeklyPlanRun (env : Env) (input : JSValue) :
    Except String (ResolutionResult × Nat) :=
  match normalizeQueryE input with
  | .error e => .error e
  | .ok normalized => .ok (getWeeklyPlanBody env normalized)

/-- Number of `model.invoke` calls recorded by a finished run. -/
def genCalls : Except String (ResolutionResult × Nat) → Nat
  | .ok (_, n) => n
  | .error _ => 0

/-- Environment whose Tavily fetch rejects. -/
def envNet : Env := ⟨.netError, fun _ => .httpError, fun _ => some true, .parseFail, id⟩

/-- Environment whose Tavily response has a non-success status. -/
def envHttp : Env := ⟨.httpError, fun _ => .httpError, fun _ => some true, .parseFail, id⟩

/-- Environment whose Tavily JSON body read rejects. -/
def envJson : Env := ⟨.jsonError, fun _ => .httpError, fun _ => some true, .parseFail, id⟩

/-- C3 counterexample: a non-string argument makes both orchestrators throw a
TypeError from `normalizeQuery` before their try/catch is entered, so the
exception escapes to the caller instead of becoming an error result. -/
theorem nonstring_input_throws_cex :
    getExercisePlanRun envHttp JSValue.nonString
        = Except.error "userQuery.trim is not a function"
    ∧ getWeeklyPlanRun envHttp JSValue.nonString
        = Except.error "userQuery.trim is not a function" :=
  ⟨rfl, rfl⟩

/-- C3 amended: for every environment and every string input, both
orchestrators return normally with a ResolutionResult — the try/catch turns
every internal exception into the error variant; only a non-string input can
raise past the boundary. -/
theorem string_input_total (env : Env) (s : String) :
    (getExercisePlanRun env (JSValue.str s)).isOk = true
    ∧ (getWeeklyPlanRun env (JSValue.str s)).isOk = true :=
  ⟨rfl, rfl⟩

/-- C4 counterexample: a rejected Tavily fetch is not caught inside
`tavilySearch`; the exception propagates to the caller instead of producing
the empty list. -/
theorem tavily_netError_propagates_cex :
    tavilySearch envNet "workout" = Except.error "tavily fetch failed" := rfl

/-- C4 amended: a non-success Tavily status degrades to the empty list, but a
network-level failure of the fetch itself (or of the JSON body read)
propagates as an exception, handled only by the orchestrators' top-level
catch — it does not degrade to the fallback path. -/
theorem tavily_status_degrade (env : Env) (q : String) :
    (env.tavily = .httpError → tavilySearch env q = .ok [])
    ∧ (env.tavily = .netError → tavilySearch env q = .error "tavily fetch failed")
    ∧ (env.tavily = .jsonError → tavilySearch env q = .error "tavily json failed") := by
  refine ⟨fun h => ?_, fun h => ?_, fun h => ?_⟩ <;>
    (unfold tavilySearch; rw [h])

/-- C4 witness: the amended behaviour at concrete environments. -/
theorem tavily_status_degrade_witness :
    tavilySearch envHttp "workout" = Except.ok []
    ∧ tavilySearch envJson "workout" = Except.error "tavily json failed" :=
  ⟨(tavily_status_degrade envHttp "workout").1 rfl,
   (tavily_status_degrade envJson "workout").2.2 rfl⟩

/-- C5: in getExercisePlan a non-empty discovery result is returned
immediately as the videos variant with zero model invocations; an empty
discovery result leads to exactly one generative invocation. -/
theorem exercisePlan_shortcircuit (env : Env) (s : String) (tv : List String)
    (htv : tavilySearch env (normalizeQuery s) = .ok tv) :
    (tv ≠ [] → getExercisePlanRun env (JSValue.str s)
        = .ok (.videos tv, 0))
    ∧ (tv = [] → genCalls (getExercisePlanRun env (JSValue.str s)) = 1) := by
  have hrun : getExercisePlanRun env (JSValue.str s)
      = .ok (getExercisePlanBody env (normalizeQuery s)) := rfl
  constructor
  · intro hne
    rw [hrun]
    have hb : getExercisePlanBody env (normalizeQuery s) = (.videos tv, 0) := by
      unfold getExercisePlanBody
      rw [htv]
      have hlen : tv.length > 0 := List.length_pos.mpr hne
      simp [hlen]
    rw [hb]
  · intro he
    subst he
    rw [hrun]
    have hb : (getExercisePlanBody env (normalizeQuery s)).2 = 1 := by
      unfold getExercisePlanBody
      rw [htv]
      cases hg : env.gen <;> simp
    show (getExercisePlanBody env (normalizeQuery s)).2 = 1
    exact hb

/-- Environment whose Tavily search succeeds with one direct YouTube link. -/
def envS1 : Env :=
  ⟨.success ["https://youtu.be/abcdefghijk"], fun _ => .httpError,
    fun _ => some true, .parseFail, id⟩

/-- C5 witness: a successful discovery short-circuits (zero invocations); an
empty discovery triggers exactly one invocation. -/
theorem exercisePlan_shortcircuit_witness :
    getExercisePlanRun envS1 (JSValue.str "yoga")
        = Except.ok (.videos ["https://youtu.be/abcdefghijk"], 0)
    ∧ genCalls (getExercisePlanRun envHttp (JSValue.str "yoga")) = 1 :=
  ⟨(exercisePlan_shortcircuit envS1 "yoga" ["https://youtu.be/abcdefghijk"]
      rfl).1 (by decide),
   (exercisePlan_shortcircuit envHttp "yoga" [] rfl).2 rfl⟩

theorem buildWeekly_length (normalized : String) (i : Nat) (l : List String) :
    (buildWeekly normalized i l).length = l.length := by
  induction l generalizing i with
  | nil => rfl
  | cons v vs ih =>
    rw [buildWeekly]
    simp only [List.length_cons, ih]

theorem buildWeekly_video (normalized : String) (i : Nat) (l : List String) :
    (buildWeekly normalized i l).map PlanEntry.video = l.map some := by
  induction l generalizing i with
  | nil => rfl
  | cons v vs ih =>
    rw [buildWeekly]
    simp only [List.map_cons, ih]

theorem mem_buildWeekly (normalized : String) (i : Nat) (l : List String)
    (e : PlanEntry) (he : e ∈ buildWeekly normalized i l) :
    ∃ v ∈ l, e.video = some v := by
  induction l generalizing i with
  | nil => simp [buildWeekly] at he
  | cons v vs ih =>
    rw [buildWeekly] at he
    rcases List.mem_cons.mp he with h | h
    · exact ⟨v, List.mem_cons_self _ _, by rw [h]⟩
    · obtain ⟨w, hw, hv⟩ := ih (i + 1) h
      exact ⟨w, List.mem_cons_of_mem _ hw, hv⟩

theorem limitedOf_subset (env : Env) (videos : List String)
    (hperm : ∀ l, (env.shuffle l).Perm l) :
    limitedOf env videos ⊆ playableOf env.oembed videos := by
  unfold limitedOf
  intro u hu
  have h1 := List.mem_of_mem_take hu
  exact (hperm (playableOf env.oembed videos)).mem_iff.mp h1

theorem limitedOf_length (env : Env) (videos : List String)
    (hperm : ∀ l, (env.shuffle l).Perm l) :
    (limitedOf env videos).length = min 7 (playableOf env.oembed videos).length := by
  unfold limitedOf
  rw [List.length_take, (hperm (playableOf env.oembed videos)).length_eq]
  omega

/-- C9: the weekly flow's generative fallback is invoked exactly when the
discovery pipeline yields zero playable validated videos; any non-zero
playable count produces the discovery-based weeklyPlan result with zero
model invocations. -/
theorem weekly_fallback_trigger (env : Env) (s : String) (tv : List String)
    (hperm : ∀ l, (env.shuffle l).Perm l)
    (htv : tavilySearch env (normalizeQuery s) = .ok tv) :
    (playableOf env.oembed tv ≠ [] →
      getWeeklyPlanRun env (JSValue.str s)
        = .ok (.weeklyPlan (discoveryPlan env (normalizeQuery s) tv), 0))
    ∧ (playableOf env.oembed tv = [] →
      genCalls (getWeeklyPlanRun env (JSValue.str s)) = 1) := by
  have hrun : getWeeklyPlanRun env (JSValue.str s)
      = .ok (getWeeklyPlanBody env (normalizeQuery s)) := rfl
  have hlen : (discoveryPlan env (normalizeQuery s) tv).length
      = (limitedOf env tv).length := buildWeekly_length _ _ _
  constructor
  · intro hne
    rw [hrun]
    have hpos : (discoveryPlan env (normalizeQuery s) tv).length > 0 := by
      rw [hlen, limitedOf_length env tv hperm]
      have hgt := List.length_pos.mpr hne
      omega
    have hb : getWeeklyPlanBody env (normalizeQuery s)
        = (.weeklyPlan (discoveryPlan env (normalizeQuery s) tv), 0) := by
      unfold getWeeklyPlanBody
      rw [htv]
      simp only [hpos, if_pos]
    rw [hb]
  · intro he
    rw [hrun]
    have hz : (discoveryPlan env (normalizeQuery s) tv).length = 0 := by
      rw [hlen, limitedOf_length env tv hperm, he]
      rfl
    show (getWeeklyPlanBody env (normalizeQuery s)).2 = 1
    unfold getWeeklyPlanBody
    rw [htv]
    simp only [hz]
    cases hg : env.gen <;> simp

/-- C9 witness: one playable discovered video yields the discovery plan with
zero invocations; zero playable videos trigger exactly one invocation. -/
theorem weekly_fallback_trigger_witness :
    getWeeklyPlanRun envS1 (JSValue.str "yoga")
        = Except.ok (.weeklyPlan (discoveryPlan envS1 (normalizeQuery "yoga")
            ["https://youtu.be/abcdefghijk"]), 0)
    ∧ genCalls (getWeeklyPlanRun envHttp (JSValue.str "yoga")) = 1 :=
  ⟨(weekly_fallback_trigger envS1 "yoga" ["https://youtu.be/abcdefghijk"]
      (fun l => List.Perm.refl l) rfl).1 (by decide),
   (weekly_fallback_trigger envHttp "yoga" [] (fun l => List.Perm.refl l) rfl).2 rfl⟩

theorem playableOf_valid (oembed : String → Option Bool) (videos : List String)
    (v : String) (hv : v ∈ playableOf oembed videos) :
    isValidVideoUrl (some v) = true :=
  (List.mem_filter.mp ((List.mem_filter.mp hv).1)).2

theorem mem_discoveryPlan (env : Env) (norm : String) (videos : List String)
    (hperm : ∀ l, (env.shuffle l).Perm l) (e : PlanEntry)
    (he : e ∈ discoveryPlan env norm videos) :
    ∃ v ∈ playableOf env.oembed videos, e.video = some v := by
  unfold discoveryPlan at he
  obtain ⟨v, hv, hev⟩ := mem_buildWeekly norm 0 (limitedOf env videos) e he
  exact ⟨v, limitedOf_subset env videos hperm hv, hev⟩

theorem discoveryPlan_length_le (env : Env) (norm : String) (videos : List String)
    (hperm : ∀ l, (env.shuffle l).Perm l) :
    (discoveryPlan env norm videos).length ≤ 7 := by
  unfold discoveryPlan
  rw [buildWeekly_length, limitedOf_length env videos hperm]
  omega

/-- Length of the Gemini array parsed during the run (zero when no parse
succeeded). -/
def genSize : GenOutcome → Nat
  | .parsed l => l.length
  | _ => 0

/-- A Gemini weekly entry carrying a pattern-valid video link. -/
def c1Entry : PlanEntry :=
  ⟨true, "Day 1", some "https://youtu.be/aaaaaaaaaaa", "Suggested", "tip"⟩

/-- Environment in which discovery finds nothing and Gemini returns eight
valid entries. -/
def envGen8 : Env :=
  ⟨.httpError, fun _ => .httpError, fun _ => some true,
    .parsed (List.replicate 8 c1Entry), id⟩

/-- C1 counterexample: the fallback path of getWeeklyPlan does not clamp the
parsed Gemini plan to seven entries — with eight valid parsed entries the
returned weeklyPlan has length eight. -/
theorem weeklyPlan_length_cex :
    getWeeklyPlanRun envGen8 (JSValue.str "yoga")
        = Except.ok (.weeklyPlan (List.replicate 8 c1Entry), 1)
    ∧ (List.replicate 8 c1Entry).length > 7 :=
  ⟨rfl, by decide⟩

/-- C1 corrected: every entry of a returned weeklyPlan passes pattern
validation; a discovery-produced plan (zero model invocations) has at most
seven entries; a fallback plan (one invocation) is bounded only by the
length of the parsed Gemini array, which the code does not clamp to seven. -/
theorem weeklyPlan_entries_valid (env : Env) (s : String) (p : List PlanEntry)
    (n : Nat) (hperm : ∀ l, (env.shuffle l).Perm l)
    (h : getWeeklyPlanRun env (JSValue.str s) = .ok (.weeklyPlan p, n)) :
    p.all (fun e => isValidVideoUrl e.video) = true
    ∧ (n = 0 → p.length ≤ 7)
    ∧ (n = 1 → p.length ≤ genSize env.gen) := by
  have hrun : getWeeklyPlanRun env (JSValue.str s)
      = .ok (getWeeklyPlanBody env (normalizeQuery s)) := rfl
  have hb : getWeeklyPlanBody env (normalizeQuery s) = (.weeklyPlan p, n) :=
    Except.ok.inj (hrun.symm.trans h)
  cases ht : tavilySearch env (normalizeQuery s) with
  | error e =>
    simp only [getWeeklyPlanBody, ht] at hb
    simp at hb
  | ok videos =>
    simp only [getWeeklyPlanBody, ht] at hb
    split at hb
    · next hpos =>
      simp only [Prod.mk.injEq, ResolutionResult.weeklyPlan.injEq] at hb
      obtain ⟨hp, hn⟩ := hb
      subst hp
      subst hn
      refine ⟨List.all_eq_true.mpr fun e he => ?_, fun _ => ?_, fun h1 => ?_⟩
      · obtain ⟨v, hv, hev⟩ := mem_discoveryPlan env _ videos hperm e he
        rw [hev]
        exact playableOf_valid _ _ _ hv
      · exact discoveryPlan_length_le env _ videos hperm
      · exact absurd h1 (by decide)
    · cases hg : env.gen with
      | invokeError msg =>
        rw [hg] at hb
        simp at hb
      | parseFail =>
        rw [hg] at hb
        simp only [Prod.mk.injEq, ResolutionResult.weeklyPlan.injEq] at hb
        obtain ⟨hp, hn⟩ := hb
        subst hp
        subst hn
        exact ⟨rfl, fun h0 => by simp, fun _ => by simp⟩
      | parsed l =>
        rw [hg] at hb
        simp only [Prod.mk.injEq, ResolutionResult.weeklyPlan.injEq] at hb
        obtain ⟨hp, hn⟩ := hb
        subst hp
        subst hn
        refine ⟨List.all_eq_true.mpr fun e he => ?_, fun h0 => ?_, fun _ => ?_⟩
        · have hpred := (List.mem_filter.mp he).2
          exact ((Bool.and_eq_true _ _).mp hpred).2
        · exact absurd h0 (by decide)
        · show (l.filter fun d => d.truthy && isValidVideoUrl d.video).length ≤ l.length
          exact List.length_filter_le _ _

/-- The single discovery-produced weekly entry of the witness run. -/
def wEntry : PlanEntry :=
  ⟨true, "Day 1", some "https://youtu.be/abcdefghijk", "Suggested workout",
    "Exercise video for yoga exercise workout video"⟩

/-- C1 witness: the corrected statement at a concrete discovery-path run. -/
theorem weeklyPlan_entries_valid_witness :
    [wEntry].all (fun e => isValidVideoUrl e.video) = true
    ∧ (0 = 0 → [wEntry].length ≤ 7)
    ∧ (0 = 1 → [wEntry].length ≤ genSize envS1.gen) :=
  weeklyPlan_entries_valid envS1 "yoga" [wEntry] 0 (fun l => List.Perm.refl l) rfl

/-- A Gemini entry whose video link matches no recognized video pattern. -/
def c2Bad : PlanEntry :=
  ⟨true, "", some "https://example.com/blog/post", "Pushups", "do pushups"⟩

/-- Environment in which discovery finds nothing and Gemini returns one
invalid-link entry. -/
def envGenBad : Env :=
  ⟨.httpError, fun _ => .httpError, fun _ => some true, .parsed [c2Bad], id⟩

/-- C2 counterexample: getExercisePlan returns the parsed fallback entries
without re-running pattern validation — an entry whose video URL matches no
recognized video-link pattern is returned, not dropped. -/
theorem singleFallback_unfiltered_cex :
    getExercisePlanRun envGenBad (JSValue.str "yoga")
        = Except.ok (.plan [c2Bad], 1)
    ∧ isValidVideoUrl c2Bad.video = false :=
  ⟨rfl, by decide⟩

/-- C2 corrected: only the weekly flow re-validates fallback entries — its
returned fallback plan is exactly the parsed array filtered by
`d && isValidVideoUrl(d.video)` — while getExercisePlan returns the parsed
array unfiltered. -/
theorem fallback_validation_flows (env : Env) (s : String) (l p q : List PlanEntry)
    (n m : Nat) (hgen : env.gen = .parsed l)
    (hw : getWeeklyPlanRun env (JSValue.str s) = .ok (.weeklyPlan p, n))
    (hn : n = 1)
    (he : getExercisePlanRun env (JSValue.str s) = .ok (.plan q, m)) :
    p = l.filter (fun d => d.truthy && isValidVideoUrl d.video) ∧ q = l := by
  subst hn
  have hwb : getWeeklyPlanBody env (normalizeQuery s) = (.weeklyPlan p, 1) :=
    Except.ok.inj ((rfl : getWeeklyPlanRun env (JSValue.str s)
      = .ok (getWeeklyPlanBody env (normalizeQuery s))).symm.trans hw)
  have heb : getExercisePlanBody env (normalizeQuery s) = (.plan q, m) :=
    Except.ok.inj ((rfl : getExercisePlanRun env (JSValue.str s)
      = .ok (getExercisePlanBody env (normalizeQuery s))).symm.trans he)
  constructor
  · cases ht : tavilySearch env (normalizeQuery s) with
    | error e =>
      simp only [getWeeklyPlanBody, ht] at hwb
      simp at hwb
    | ok videos =>
      simp only [getWeeklyPlanBody, ht, hgen] at hwb
      split at hwb
      · simp at hwb
      · simp only [Prod.mk.injEq, ResolutionResult.weeklyPlan.injEq] at hwb
        exact hwb.1.symm
  · cases ht : tavilySearch env (normalizeQuery s) with
    | error e =>
      simp only [getExercisePlanBody, ht] at heb
      simp at heb
    | ok videos =>
      simp only [getExercisePlanBody, ht, hgen] at heb
      split at heb
      · simp at heb
      · simp only [Prod.mk.injEq, ResolutionResult.plan.injEq] at heb
        exact heb.1.symm

/-- A Gemini entry whose video link is a valid Vimeo URL. -/
def c2Good : PlanEntry :=
  ⟨true, "Day 1", some "https://vimeo.com/12345", "Row", "row tip"⟩

/-- Environment in which discovery finds nothing and Gemini returns one
valid and one invalid entry. -/
def envGenMix : Env :=
  ⟨.httpError, fun _ => .httpError, fun _ => some true,
    .parsed [c2Good, c2Bad], id⟩

/-- C2 witness: with one valid and one invalid parsed entry, the weekly flow
keeps exactly the valid one while the single flow returns both. -/
theorem fallback_validation_flows_witness :
    [c2Good] = [c2Good, c2Bad].filter (fun d => d.truthy && isValidVideoUrl d.video)
    ∧ [c2Good, c2Bad] = [c2Good, c2Bad] :=
  fallback_validation_flows envGenMix "yoga" [c2Good, c2Bad] [c2Good]
    [c2Good, c2Bad] 1 1 rfl rfl rfl rfl

/-- The video fields of a weeklyPlan result (empty for any other outcome). -/
def planVideos : Except String (ResolutionResult × Nat) → List (Option String)
  | .ok (.weeklyPlan p, _) => p.map PlanEntry.video
  | _ => []

/-- Eight distinct direct YouTube candidates. -/
def u8list : List String :=
  ["https://youtu.be/v1", "https://youtu.be/v2", "https://youtu.be/v3",
   "https://youtu.be/v4", "https://youtu.be/v5", "https://youtu.be/v6",
   "https://youtu.be/v7", "https://youtu.be/v8"]

/-- Environment with eight discovered YouTube links, all of them live. -/
def env8 : Env :=
  ⟨.success u8list, fun _ => .httpError, fun _ => some true, .parseFail, id⟩

/-- C8 counterexample: with eight playable validated YouTube candidates the
shuffle-and-slice step drops one whose oEmbed lookup succeeded, so oEmbed
success is not sufficient for inclusion in the returned plan. -/
theorem playable_dropped_by_slice_cex :
    env8.oembed "https://youtu.be/v8" = some true
    ∧ isYouTubeUrl "https://youtu.be/v8" = true
    ∧ "https://youtu.be/v8" ∈ playableOf env8.oembed u8list
    ∧ (planVideos (getWeeklyPlanRun env8 (JSValue.str "yoga"))).contains
        (some "https://youtu.be/v8") = false
    ∧ (planVideos (getWeeklyPlanRun env8 (JSValue.str "yoga"))).length = 7 :=
  ⟨rfl, by decide, by decide, by decide, by decide⟩

/-- C8 corrected: a non-YouTube URL skips the oEmbed check and counts as
playable; a pattern-validated YouTube candidate survives the liveness filter
iff its oEmbed lookup returns HTTP success; survival is necessary for
inclusion in the returned discovery plan, and sufficient whenever at most
seven candidates survive — beyond seven, the slice drops playable ones. -/
theorem liveness_check_contract (env : Env) (s u : String) (tv : List String)
    (p : List PlanEntry)
    (hperm : ∀ l, (env.shuffle l).Perm l)
    (htv : tavilySearch env (normalizeQuery s) = .ok tv)
    (h : getWeeklyPlanRun env (JSValue.str s) = .ok (.weeklyPlan p, 0)) :
    (isYouTubeUrl u = false → isPlayableYouTubeUrl env.oembed u = true)
    ∧ (isYouTubeUrl u = true → u ∈ validOf tv →
        (u ∈ playableOf env.oembed tv ↔ env.oembed u = some true))
    ∧ (some u ∈ p.map PlanEntry.video → u ∈ playableOf env.oembed tv)
    ∧ ((playableOf env.oembed tv).length ≤ 7 → u ∈ playableOf env.oembed tv →
        some u ∈ p.map PlanEntry.video) := by
  have hb : getWeeklyPlanBody env (normalizeQuery s) = (.weeklyPlan p, 0) :=
    Except.ok.inj ((rfl : getWeeklyPlanRun env (JSValue.str s)
      = .ok (getWeeklyPlanBody env (normalizeQuery s))).symm.trans h)
  have hp : p = discoveryPlan env (normalizeQuery s) tv := by
    simp only [getWeeklyPlanBody, htv] at hb
    split at hb
    · simp only [Prod.mk.injEq, ResolutionResult.weeklyPlan.injEq] at hb
      exact hb.1.symm
    · cases hg : env.gen <;> rw [hg] at hb <;> simp at hb
  have hmapv : p.map PlanEntry.video = (limitedOf env tv).map some := by
    rw [hp]
    exact buildWeekly_video _ _ _
  refine ⟨fun hyt => ?_, fun hyt hval => ?_, fun hin => ?_, fun hle hu => ?_⟩
  · simp [isPlayableYouTubeUrl, hyt]
  · constructor
    · intro hpl
      have hpb := (List.mem_filter.mp hpl).2
      rw [isPlayableYouTubeUrl, hyt] at hpb
      simp only [Bool.not_true, Bool.false_eq_true, if_false] at hpb
      cases ho : env.oembed u with
      | none => rw [ho] at hpb; exact Bool.noConfusion hpb
      | some b =>
        rw [ho] at hpb
        simp at hpb
        rw [hpb]
    · intro ho
      refine List.mem_filter.mpr ⟨hval, ?_⟩
      rw [isPlayableYouTubeUrl, hyt, ho]
      simp
  · rw [hmapv] at hin
    obtain ⟨v, hv, hvu⟩ := List.mem_map.mp hin
    have : v = u := Option.some.inj hvu
    subst this
    exact limitedOf_subset env tv hperm hv
  · rw [hmapv]
    have hmem : u ∈ env.shuffle (playableOf env.oembed tv) :=
      (hperm _).mem_iff.mpr hu
    have hlim : limitedOf env tv = env.shuffle (playableOf env.oembed tv) := by
      show (env.shuffle (playableOf env.oembed tv)).take
          (min 7 (env.shuffle (playableOf env.oembed tv)).length)
        = env.shuffle (playableOf env.oembed tv)
      have hsl : (env.shuffle (playableOf env.oembed tv)).length ≤ 7 := by
        rw [(hperm _).length_eq]
        exact hle
      have hmin : min 7 (env.shuffle (playableOf env.oembed tv)).length
          = (env.shuffle (playableOf env.oembed tv)).length := by omega
      rw [hmin]
      exact List.take_of_length_le (le_refl _)
    rw [hlim]
    exact List.mem_map.mpr ⟨u, hmem, rfl⟩

/-- C8 witness: the corrected statement at a concrete one-candidate run. -/
theorem liveness_check_contract_witness :
    (isYouTubeUrl "https://youtu.be/abcdefghijk" = false →
      isPlayableYouTubeUrl envS1.oembed "https://youtu.be/abcdefghijk" = true)
    ∧ (isYouTubeUrl "https://youtu.be/abcdefghijk" = true →
        "https://youtu.be/abcdefghijk" ∈ validOf ["https://youtu.be/abcdefghijk"] →
        ("https://youtu.be/abcdefghijk"
            ∈ playableOf envS1.oembed ["https://youtu.be/abcdefghijk"]
          ↔ envS1.oembed "https://youtu.be/abcdefghijk" = some true))
    ∧ (some "https://youtu.be/abcdefghijk" ∈ [wEntry].map PlanEntry.video →
        "https://youtu.be/abcdefghijk"
          ∈ playableOf envS1.oembed ["https://youtu.be/abcdefghijk"])
    ∧ ((playableOf envS1.oembed ["https://youtu.be/abcdefghijk"]).length ≤ 7 →
        "https://youtu.be/abcdefghijk"
            ∈ playableOf envS1.oembed ["https://youtu.be/abcdefghijk"] →
        some "https://youtu.be/abcdefghijk" ∈ [wEntry].map PlanEntry.video) :=
  liveness_check_contract envS1 "yoga" "https://youtu.be/abcdefghijk"
    ["https://youtu.be/abcdefghijk"] [wEntry] (fun l => List.Perm.refl l) rfl rfl

theorem lcs_infix_mono (a b : List Char) (h : a <:+: b) : lcs a <:+: lcs b := by
  obtain ⟨s, t, hst⟩ := h
  refine ⟨lcs s, lcs t, ?_⟩
  rw [← hst]
  unfold lcs
  simp [List.map_append]

theorem ciSub_of_csSub (pat u : List Char) (hp : lcs pat = pat)
    (h : csSub pat u = true) : ciSub pat u = true := by
  rw [ciSub_iff, hp]
  rw [csSub_iff] at h
  have := lcs_infix_mono pat u h
  rwa [hp] at this

theorem isValidVideoUrl_of_parts (u : String)
    (h : ciSub "youtube.com/watch?v=".data u.data = true
       ∨ ciSub "youtube.com/shorts/".data u.data = true
       ∨ ciSub "youtu.be/".data u.data = true
       ∨ ciEnd ".mp4".data u.data = true ∨ ciEnd ".webm".data u.data = true) :
    isValidVideoUrl (some u) = true := by
  have hne : u ≠ "" := by
    intro he
    subst he
    rcases h with h | h | h | h | h <;> exact absurd h (by decide)
  show (if u = "" then false else _) = true
  rw [if_neg hne]
  rcases h with h | h | h | h | h <;> simp [h]

theorem isDirectVideo_valid (u : String) (h : isDirectVideo u = true) :
    isValidVideoUrl (some u) = true := by
  unfold isDirectVideo at h
  simp only [Bool.or_eq_true] at h
  apply isValidVideoUrl_of_parts
  rcases h with (h | h) | h
  · rcases h with h | h
    · exact Or.inl (ciSub_of_csSub _ _ (by decide) h)
    · exact Or.inr (Or.inl (ciSub_of_csSub _ _ (by decide) h))
  · exact Or.inr (Or.inr (Or.inl (ciSub_of_csSub _ _ (by decide) h)))
  · rcases h with h | h
    · exact Or.inr (Or.inr (Or.inr (Or.inl h)))
    · exact Or.inr (Or.inr (Or.inr (Or.inr h)))

theorem extract_valid (page : PageOutcome) (u : String)
    (h : extractVideoFromPage page = some u) : isValidVideoUrl (some u) = true := by
  cases page with
  | netError => exact Option.noConfusion h
  | httpError => exact Option.noConfusion h
  | success html =>
    cases hv : findVideoMatch html.data with
    | some m =>
      simp only [extractVideoFromPage, hv] at h
      have hu : u = String.mk m := (Option.some.inj h).symm
      subst hu
      have hends := findVideoMatch_ends _ _ hv
      refine isValidVideoUrl_of_parts _ ?_
      rcases hends with hends | hends
      · exact Or.inr (Or.inr (Or.inr (Or.inl hends)))
      · exact Or.inr (Or.inr (Or.inr (Or.inr hends)))
    | none =>
      simp only [extractVideoFromPage, hv] at h
      cases hy : findYtMatch html.data with
      | some m =>
        rw [hy] at h
        have hu : u = String.mk m := (Option.some.inj h).symm
        subst hu
        exact isValidVideoUrl_of_parts _ (Or.inl (findYtMatch_contains _ _ hy))
      | none =>
        rw [hy] at h
        exact Option.noConfusion h

/-- C10: every URL in the videos array of a videos-variant result of
getExercisePlan satisfies the broad pattern validator isValidVideoUrl, even
though the single-plan discovery path applies no explicit validation step. -/
theorem exercisePlan_videos_valid (env : Env) (input : JSValue) (vs : List String)
    (n : Nat) (h : getExercisePlanRun env input = .ok (.videos vs, n)) :
    vs.all (fun u => isValidVideoUrl (some u)) = true := by
  cases input with
  | nonString => exact Except.noConfusion h
  | str s =>
    have hb : getExercisePlanBody env (normalizeQuery s) = (.videos vs, n) :=
      Except.ok.inj ((rfl : getExercisePlanRun env (JSValue.str s)
        = .ok (getExercisePlanBody env (normalizeQuery s))).symm.trans h)
    cases ht : tavilySearch env (normalizeQuery s) with
    | error e =>
      simp only [getExercisePlanBody, ht] at hb
      simp at hb
    | ok videos =>
      simp only [getExercisePlanBody, ht] at hb
      split at hb
      · simp only [Prod.mk.injEq, ResolutionResult.videos.injEq] at hb
        obtain ⟨hv, hn⟩ := hb
        subst hv
        rw [List.all_eq_true]
        intro u hu
        cases henv : env.tavily with
        | netError =>
          simp only [tavilySearch, henv] at ht
          exact Except.noConfusion ht
        | httpError =>
          simp only [tavilySearch, henv] at ht
          have hnil := Except.ok.inj ht
          rw [← hnil] at hu
          exact absurd hu (List.not_mem_nil u)
        | jsonError =>
          simp only [tavilySearch, henv] at ht
          exact Except.noConfusion ht
        | success urls =>
          simp only [tavilySearch, henv] at ht
          have hvid := Except.ok.inj ht
          rw [← hvid] at hu
          rcases List.mem_append.mp hu with hd | he
          · exact isDirectVideo_valid u (List.mem_filter.mp hd).2
          · obtain ⟨o, ho, hou⟩ := List.mem_filterMap.mp he
            obtain ⟨url, hurl, hfu⟩ := List.mem_map.mp ho
            rw [← hfu] at hou
            by_cases hdir : isDirectVideo url = true
            · rw [if_pos hdir] at hou
              exact Option.noConfusion hou
            · rw [if_neg hdir] at hou
              exact extract_valid _ u hou
      · cases hg : env.gen <;> rw [hg] at hb <;> simp at hb

/-- Environment whose search returns one direct link and one page that embeds
an .mp4 link. -/
def envMix : Env :=
  ⟨.success ["https://youtu.be/abcdefghijk", "https://blog.example.com/post"],
    fun _ => .success "<a href=http://x.com/a.mp4>", fun _ => some true,
    .parseFail, id⟩

/-- C10 witness: the discovered direct link and the extracted embedded link
both satisfy the broad validator. -/
theorem exercisePlan_videos_valid_witness :
    (["https://youtu.be/abcdefghijk", "http://x.com/a.mp4"].all
      (fun u => isValidVideoUrl (some u))) = true :=
  exercisePlan_videos_valid envMix (JSValue.str "yoga")
    ["https://youtu.be/abcdefghijk", "http://x.com/a.mp4"] 0 rfl
